import Mathlib

/-!
# Verification of the handover status service (`handover_app.py`)

A shallow embedding of the core logic of `src/handover_app.py`:

* the event documents stored in the Elasticsearch index (`EventRecord`),
* the search calls the endpoints issue (exact-match filters, sort by
  `report_time` descending, `size` cap) modelled by `es_search`,
* the single-token status endpoint `handover_result`,
* the release matcher `valid_handover` (the regex
  `^.*?_(?P<first>\d+)(_(?P<second>\d+))?(_(\d+))?$` is modelled by an
  explicit lazy-prefix backtracking parser, `findTail`),
* the listing endpoint `handover_results`, and
* the purge endpoint `delete_handover`.

Timestamps (`report_time` is an ISO-8601 string in the service, compared
lexicographically which coincides with chronological order) are modelled as
naturals.  Python dictionaries whose keys may be absent
(`progress_complete` / `progress_total` inside `params`) are modelled with
`Option`; reading an absent key raises `KeyError` in Python, modelled by the
`HandoverError.keyError` outcome.
-/

namespace HandoverApp

/-- `report_type` of an event document; the service only ever filters on the
two values `"INFO"` and `"ERROR"`, and per the data model these are the only
values written. -/
inductive ReportType where
  | INFO : ReportType
  | ERROR : ReportType
deriving DecidableEq, Repr

/-- The `params` payload of an event document.  `handover_token`, `src_uri`,
`tgt_uri`, `contact` and `comment` are always present; the progress counters
may be absent (absent dictionary key). -/
structure Params where
  handover_token : String
  src_uri : String
  tgt_uri : String
  contact : String
  comment : String
  progress_complete : Option Nat
  progress_total : Option Nat
deriving DecidableEq, Repr

/-- One event document of the Elasticsearch index (`doc`): store id
(`doc['_id']`), `report_type`, `report_time`, `message` and `params`. -/
structure EventRecord where
  id : String
  report_type : ReportType
  report_time : Nat
  message : String
  params : Params
deriving DecidableEq, Repr

/-- Insert an event into a list that is sorted by `report_time` in descending
order, keeping the order sorted. -/
def insertTimeDesc (e : EventRecord) : List EventRecord → List EventRecord
  | [] => [e]
  | x :: xs =>
    if x.report_time < e.report_time then e :: x :: xs
    else x :: insertTimeDesc e xs

/-- Sort a list of events by `report_time` in descending order (the
`"sort": [{"report_time": {"order": "desc"}}]` clause of every query the
service issues). -/
def sortTimeDesc : List EventRecord → List EventRecord
  | [] => []
  | e :: es => insertTimeDesc e (sortTimeDesc es)

/-- The Elasticsearch search call used throughout `handover_app.py`: keep the
documents matching the exact-match filter, sort by `report_time` descending
and return the first `size` hits. -/
def es_search (store : List EventRecord) (query : EventRecord → Bool)
    (size : Nat) : List EventRecord :=
  (sortTimeDesc (store.filter query)).take size

/-- The filter of the ERROR lookup: `params.handover_token.keyword == token`
and `report_type.keyword == "ERROR"`. -/
def errorQuery (token : String) (e : EventRecord) : Bool :=
  decide (e.params.handover_token = token ∧ e.report_type = ReportType.ERROR)

/-- The filter of the INFO lookup: `params.handover_token.keyword == token`
and `report_type.keyword == "INFO"`. -/
def infoQuery (token : String) (e : EventRecord) : Bool :=
  decide (e.params.handover_token = token ∧ e.report_type = ReportType.INFO)

/-- The ways `handover_result` can fail: the 404 `HTTPRequestError` raised
when no event is found for the token, and the Python `KeyError` raised when
a dictionary key read by the endpoint is absent. -/
inductive HandoverError where
  | notFound (token : String) : HandoverError
  | keyError (field : String) : HandoverError
deriving DecidableEq, Repr

/-- One entry of the `handover_detail` list built by `handover_result`, with
the exact keys the endpoint writes.  The ERROR branch never writes the
progress keys (`none`); the INFO branch always writes both. -/
structure HandoverDetail where
  id : String
  message : String
  comment : String
  handover_token : String
  contact : String
  src_uri : String
  tgt_uri : String
  progress_complete : Option Nat
  progress_total : Option Nat
  report_time : Nat
deriving DecidableEq, Repr

/-- The result dictionary built from an ERROR hit (lines 175–183 of
`handover_app.py`): no progress keys. -/
def errorDetail (e : EventRecord) : HandoverDetail :=
  { id := e.id
    message := e.message
    comment := e.params.comment
    handover_token := e.params.handover_token
    contact := e.params.contact
    src_uri := e.params.src_uri
    tgt_uri := e.params.tgt_uri
    progress_complete := none
    progress_total := none
    report_time := e.report_time }

/-- The result dictionary built from an INFO hit (lines 190–200 of
`handover_app.py`), given the values found under the progress keys. -/
def infoDetail (e : EventRecord) (pc pt : Nat) : HandoverDetail :=
  { id := e.id
    message := e.message
    comment := e.params.comment
    handover_token := e.params.handover_token
    contact := e.params.contact
    src_uri := e.params.src_uri
    tgt_uri := e.params.tgt_uri
    progress_complete := some pc
    progress_total := some pt
    report_time := e.report_time }

/-- The INFO loop of `handover_result`: one result dictionary per hit; the
reads `params['progress_complete']` and `params['progress_total']` raise
`KeyError` (in that order) when the key is absent. -/
def infoDetails : List EventRecord → Except HandoverError (List HandoverDetail)
  | [] => Except.ok []
  | e :: rest =>
    match e.params.progress_complete with
    | none => Except.error (HandoverError.keyError "progress_complete")
    | some pc =>
      match e.params.progress_total with
      | none => Except.error (HandoverError.keyError "progress_total")
      | some pt =>
        match infoDetails rest with
        | Except.error err => Except.error err
        | Except.ok ds => Except.ok (infoDetail e pc pt :: ds)

/-- The single-token status endpoint (`GET /handovers/<handover_token>`,
lines 166–204): fetch the most recent ERROR event (size 1, `report_time`
descending); if there is one, answer from it; otherwise fetch the most
recent INFO event and answer from it; if the accumulated detail list is
empty, fail with the 404 not-found error. -/
def handover_result (store : List EventRecord) (handover_token : String) :
    Except HandoverError (List HandoverDetail) :=
  let res_error := es_search store (errorQuery handover_token) 1
  if res_error.length ≠ 0 then
    let handover_detail := res_error.map errorDetail
    if handover_detail.length = 0 then
      Except.error (HandoverError.notFound handover_token)
    else Except.ok handover_detail
  else
    match infoDetails (es_search store (infoQuery handover_token) 1) with
    | Except.error err => Except.error err
    | Except.ok handover_detail =>
      if handover_detail.length = 0 then
        Except.error (HandoverError.notFound handover_token)
      else Except.ok handover_detail

/-- The purge endpoint (`DELETE /handovers/<handover_token>`, lines 363–368):
`delete_by_query` removes every document whose `params.handover_token`
matches, returning the store without them. -/
def delete_handover (store : List EventRecord) (handover_token : String) :
    List EventRecord :=
  store.filter (fun e => decide (e.params.handover_token ≠ handover_token))

/-! ## Sorting and search lemmas -/

/-- Membership in `insertTimeDesc`. -/
theorem mem_insertTimeDesc {x e : EventRecord} {l : List EventRecord} :
    x ∈ insertTimeDesc e l ↔ x = e ∨ x ∈ l := by
  induction l with
  | nil => simp [insertTimeDesc]
  | cons a t ih =>
    by_cases h : a.report_time < e.report_time
    · simp [insertTimeDesc, h]
      try tauto
    · simp [insertTimeDesc, h, ih]
      try tauto

/-- Membership in `sortTimeDesc`. -/
theorem mem_sortTimeDesc {x : EventRecord} {l : List EventRecord} :
    x ∈ sortTimeDesc l ↔ x ∈ l := by
  induction l with
  | nil => simp [sortTimeDesc]
  | cons a t ih => simp [sortTimeDesc, mem_insertTimeDesc, ih]

/-- `insertTimeDesc` never produces the empty list. -/
theorem insertTimeDesc_ne_nil (e : EventRecord) (l : List EventRecord) :
    insertTimeDesc e l ≠ [] := by
  cases l with
  | nil => simp [insertTimeDesc]
  | cons a t =>
    unfold insertTimeDesc
    by_cases h : a.report_time < e.report_time <;> simp [h]

/-- `sortTimeDesc` is empty only on the empty list. -/
theorem sortTimeDesc_eq_nil_iff {l : List EventRecord} :
    sortTimeDesc l = [] ↔ l = [] := by
  cases l with
  | nil => simp [sortTimeDesc]
  | cons a t => simp [sortTimeDesc, insertTimeDesc_ne_nil]

/-- The head of `insertTimeDesc e l` is `e` or the head of `l`. -/
theorem head_insertTimeDesc (e : EventRecord) (l : List EventRecord) :
    ∃ h t, insertTimeDesc e l = h :: t ∧ (h = e ∨ l.head? = some h) := by
  cases l with
  | nil => exact ⟨e, [], rfl, Or.inl rfl⟩
  | cons a t =>
    unfold insertTimeDesc
    by_cases hc : a.report_time < e.report_time
    · exact ⟨e, a :: t, by simp [hc], Or.inl rfl⟩
    · exact ⟨a, insertTimeDesc e t, by simp [hc], Or.inr rfl⟩

/-- The head of the descending sort dominates every element's
`report_time`. -/
theorem head_sortTimeDesc_max {l : List EventRecord} {h : EventRecord}
    {t : List EventRecord} (heq : sortTimeDesc l = h :: t) :
    ∀ x ∈ l, x.report_time ≤ h.report_time := by
  induction l generalizing h t with
  | nil => simp [sortTimeDesc] at heq
  | cons a rest ih =>
    intro x hx
    rw [sortTimeDesc] at heq
    rcases List.mem_cons.mp hx with hx | hx
    · -- x = a : compare a with the produced head
      cases hrest : sortTimeDesc rest with
      | nil =>
        rw [hrest] at heq
        simp [insertTimeDesc] at heq
        simp [hx, heq.1]
      | cons b bt =>
        rw [hrest] at heq
        unfold insertTimeDesc at heq
        by_cases hc : b.report_time < a.report_time
        · simp [hc] at heq
          simp [hx, heq.1]
        · simp [hc] at heq
          subst hx
          have := heq.1
          subst this
          omega
    · -- x in rest : use the head of sortTimeDesc rest
      cases hrest : sortTimeDesc rest with
      | nil =>
        have : rest = [] := sortTimeDesc_eq_nil_iff.mp hrest
        subst this
        simp at hx
      | cons b bt =>
        have hxb : x.report_time ≤ b.report_time := ih hrest x hx
        rw [hrest] at heq
        unfold insertTimeDesc at heq
        by_cases hc : b.report_time < a.report_time
        · simp [hc] at heq
          have := heq.1
          subst this
          omega
        · simp [hc] at heq
          have := heq.1
          subst this
          omega

/-- `es_search … 1` is empty exactly when no stored document matches the
filter. -/
theorem es_search_one_eq_nil_iff {store : List EventRecord}
    {q : EventRecord → Bool} :
    es_search store q 1 = [] ↔ ∀ e ∈ store, ¬ q e = true := by
  unfold es_search
  constructor
  · intro h e he hq
    cases hs : sortTimeDesc (store.filter q) with
    | nil =>
      have : store.filter q = [] := sortTimeDesc_eq_nil_iff.mp hs
      have : e ∈ store.filter q := List.mem_filter.mpr ⟨he, hq⟩
      simp_all
    | cons b bt => simp [hs] at h
  · intro h
    have : store.filter q = [] := by
      apply List.filter_eq_nil_iff.mpr
      intro e he
      simpa using h e he
    simp [this, sortTimeDesc]

/-- If some stored document matches the filter, `es_search … 1` returns a
single hit: a matching stored document whose `report_time` dominates every
matching document. -/
theorem es_search_one_eq_top {store : List EventRecord}
    {q : EventRecord → Bool} {e₀ : EventRecord} (he₀ : e₀ ∈ store)
    (hq₀ : q e₀ = true) :
    ∃ e, es_search store q 1 = [e] ∧ e ∈ store ∧ q e = true ∧
      ∀ x ∈ store, q x = true → x.report_time ≤ e.report_time := by
  have hne : store.filter q ≠ [] := by
    intro h
    have : e₀ ∈ store.filter q := List.mem_filter.mpr ⟨he₀, hq₀⟩
    simp_all
  cases hs : sortTimeDesc (store.filter q) with
  | nil => exact absurd (sortTimeDesc_eq_nil_iff.mp hs) hne
  | cons b bt =>
    refine ⟨b, ?_, ?_, ?_, ?_⟩
    · unfold es_search
      rw [hs]
      rfl
    · have : b ∈ sortTimeDesc (store.filter q) := by rw [hs]; simp
      exact (List.mem_filter.mp (mem_sortTimeDesc.mp this)).1
    · have : b ∈ sortTimeDesc (store.filter q) := by rw [hs]; simp
      exact (List.mem_filter.mp (mem_sortTimeDesc.mp this)).2
    · intro x hx hqx
      exact head_sortTimeDesc_max hs x (List.mem_filter.mpr ⟨hx, hqx⟩)

/-! ## The release matcher

`valid_handover` (lines 301–308) applies
`re.match(r'^.*?_(?P<first>\d+)(_(?P<second>\d+))?(_(\d+))?$', src_uri)`.
The lazy `.*?` makes the engine try split positions from the left; at each
position the tail must be an underscore followed by one to three non-empty
digit runs separated by underscores, reaching the end of the string
(Python's `$` also accepts a single trailing newline, and `.` does not match
a newline, both reproduced below).  `findTail` returns the `first` and
`second` capture groups of the leftmost successful split. -/

/-- `int(...)` applied to a captured digit group. -/
def digitsToNat (l : List Char) : Nat :=
  l.foldl (fun n c => 10 * n + (c.toNat - Char.toNat '0')) 0

/-- Parse one `_(\d+)` segment: an underscore followed by a maximal non-empty
digit run; returns the run and the rest. -/
def parseSeg (cs : List Char) : Option (List Char × List Char) :=
  match cs with
  | [] => none
  | c :: rest =>
    if c = '_' then
      if (rest.takeWhile Char.isDigit).isEmpty then none
      else some (rest.takeWhile Char.isDigit, rest.dropWhile Char.isDigit)
    else none

/-- One attempt of `_(?P<first>\d+)(_(?P<second>\d+))?(_(\d+))?$` at a fixed
position: one to three segments, then the end of the string (or the end
preceded by a single newline, as Python's `$` allows).  The third run is
parsed but, as in the source pattern, not returned. -/
def parseHere (cs : List Char) : Option (List Char × Option (List Char)) :=
  match parseSeg cs with
  | none => none
  | some (d1, r1) =>
    if r1 = [] ∨ r1 = ['\n'] then some (d1, none)
    else
      match parseSeg r1 with
      | none => none
      | some (d2, r2) =>
        if r2 = [] ∨ r2 = ['\n'] then some (d1, some d2)
        else
          match parseSeg r2 with
          | none => none
          | some (_, r3) =>
            if r3 = [] ∨ r3 = ['\n'] then some (d1, some d2) else none

/-- The lazy `.*?` prefix: try `parseHere` at each position from the left and
keep the first success; the prefix consumed by `.*?` may not contain a
newline (`.` does not match one). -/
def findTail : List Char → Option (List Char × Option (List Char))
  | [] => none
  | c :: t =>
    match parseHere (c :: t) with
    | some g => some g
    | none => if c = '\n' then none else findTail t

/-- The body of `valid_handover` on the extracted `src_uri` string: the §4.3
contract `matches(identifier, release)`.  Python evaluates
`(first == release) or ((second == release) and (int(second) - int(first) == 53))`;
when the second group did not participate it is `None`, `None == release` is
false, and the `int` calls are never reached, so the call never raises. -/
def matchesRelease (src_uri release : String) : Bool :=
  match findTail src_uri.toList with
  | none => false
  | some (first, second) =>
    decide (first = release.toList) ||
      match second with
      | none => false
      | some d2 =>
        decide (d2 = release.toList) &&
          decide ((digitsToNat d2 : Int) - (digitsToNat first : Int) = 53)

/-- `valid_handover(doc, release)` (lines 301–308): read `params.src_uri`
from the document and apply the matcher. -/
def valid_handover (doc : EventRecord) (release : String) : Bool :=
  matchesRelease doc.params.src_uri release

/-! ### Declarative characterisation of the pattern -/

/-- A non-empty all-digit capture group (`\d+`). -/
def IsDigits (l : List Char) : Prop := l ≠ [] ∧ ∀ c ∈ l, c.isDigit = true

/-- `cs` is `core` followed by the end of the string; Python's `$` also
accepts a single trailing newline. -/
def EndsAt (cs core : List Char) : Prop := cs = core ∨ cs = core ++ ['\n']

/-- Declarative shape of a successful tail match
`_(?P<first>\d+)(_(?P<second>\d+))?(_(\d+))?$` with its two relevant capture
groups. -/
def TailShape (cs first : List Char) (second : Option (List Char)) : Prop :=
  IsDigits first ∧
  match second with
  | none => EndsAt cs ('_' :: first)
  | some d2 =>
    IsDigits d2 ∧
      (EndsAt cs ('_' :: first ++ '_' :: d2) ∨
        ∃ d3, IsDigits d3 ∧ EndsAt cs ('_' :: first ++ '_' :: d2 ++ '_' :: d3))

/-- The regex semantics of the whole pattern on `s`: some split position `i`
whose prefix contains no newline and whose tail has the shape, and no
earlier position admits any shape (the lazy `.*?` keeps the leftmost). -/
def MatchesPattern (s : String) (first : List Char)
    (second : Option (List Char)) : Prop :=
  ∃ i, TailShape (s.toList.drop i) first second ∧
    (∀ c ∈ s.toList.take i, c ≠ '\n') ∧
    ∀ j < i, ¬ ∃ f2 s2, TailShape (s.toList.drop j) f2 s2

/-! ### The parser meets the declarative shape -/

theorem takeWhile_dropWhile_append {p : Char → Bool} {l r : List Char}
    (hl : ∀ c ∈ l, p c = true) (hr : ∀ c, r.head? = some c → p c = false) :
    (l ++ r).takeWhile p = l ∧ (l ++ r).dropWhile p = r := by
  induction l with
  | nil =>
    cases r with
    | nil => simp
    | cons c t =>
      have := hr c rfl
      simp [List.takeWhile_cons, List.dropWhile_cons, this]
  | cons a l ih =>
    have ha := hl a (by simp)
    have hrest := ih (fun c hc => hl c (by simp [hc]))
    simp [List.takeWhile_cons, List.dropWhile_cons, ha, hrest.1, hrest.2]

theorem all_digit_takeWhile (l : List Char) :
    ∀ c ∈ l.takeWhile Char.isDigit, c.isDigit = true := by
  induction l with
  | nil => simp
  | cons a t ih =>
    by_cases h : a.isDigit
    · simp only [List.takeWhile_cons, h, if_true]
      intro c hc
      rcases List.mem_cons.mp hc with rfl | hc
      · exact h
      · exact ih c hc
    · simp [List.takeWhile_cons, h]

theorem head_dropWhile_not {p : Char → Bool} (l : List Char) :
    ∀ c, (l.dropWhile p).head? = some c → p c = false := by
  induction l with
  | nil => simp
  | cons a t ih =>
    intro c hc
    by_cases h : p a
    · rw [List.dropWhile_cons, if_pos h] at hc
      exact ih c hc
    · rw [List.dropWhile_cons, if_neg h] at hc
      simp only [List.head?_cons, Option.some.injEq] at hc
      subst hc
      simpa using h

/-- Characterisation of `parseSeg`. -/
theorem parseSeg_eq_some_iff {cs d r : List Char} :
    parseSeg cs = some (d, r) ↔
      IsDigits d ∧ (∀ c, r.head? = some c → c.isDigit = false) ∧
        cs = '_' :: (d ++ r) := by
  constructor
  · intro h
    cases cs with
    | nil => exact absurd h (by simp [parseSeg])
    | cons a rest =>
      by_cases ha : a = '_'
      · subst ha
        rw [parseSeg] at h
        rw [if_pos rfl] at h
        by_cases he : (rest.takeWhile Char.isDigit).isEmpty
        · rw [if_pos he] at h
          exact Option.noConfusion h
        · rw [if_neg he] at h
          simp only [Option.some.injEq, Prod.mk.injEq] at h
          obtain ⟨rfl, rfl⟩ := h
          refine ⟨⟨by simpa [List.isEmpty_iff] using he, all_digit_takeWhile rest⟩,
            head_dropWhile_not rest, ?_⟩
          rw [List.takeWhile_append_dropWhile]
      · rw [parseSeg, if_neg ha] at h
        exact Option.noConfusion h
  · rintro ⟨⟨hne, hdig⟩, hr, rfl⟩
    have h2 := takeWhile_dropWhile_append (p := Char.isDigit) hdig hr
    rw [parseSeg, if_pos rfl, h2.1, h2.2]
    have hie : d.isEmpty = false := by
      cases d with
      | nil => exact absurd rfl hne
      | cons a t => rfl
    rw [hie]
    rfl

/-- The rest after a parsed segment that starts with an underscore is neither
the end of the string nor a single newline. -/
theorem not_end_cons_underscore (l : List Char) :
    ¬ ('_' :: l = [] ∨ '_' :: l = ['\n']) := by
  rintro (h | h)
  · exact List.noConfusion h
  · injection h with hc _
    exact absurd hc (by decide)

/-- `parseHere` computes exactly the declarative tail shape. -/
theorem parseHere_eq_some_iff {cs f : List Char} {sec : Option (List Char)} :
    parseHere cs = some (f, sec) ↔ TailShape cs f sec := by
  constructor
  · intro h
    unfold parseHere at h
    cases h1 : parseSeg cs with
    | none => rw [h1] at h; exact Option.noConfusion h
    | some p1 =>
      obtain ⟨d1, r1⟩ := p1
      rw [h1] at h
      dsimp only at h
      obtain ⟨hd1, hr1, hcs⟩ := parseSeg_eq_some_iff.mp h1
      subst hcs
      by_cases he1 : r1 = [] ∨ r1 = ['\n']
      · rw [if_pos he1] at h
        simp only [Option.some.injEq, Prod.mk.injEq] at h
        obtain ⟨rfl, rfl⟩ := h
        refine ⟨hd1, ?_⟩
        show EndsAt _ _
        rcases he1 with rfl | rfl
        · exact Or.inl (by simp)
        · exact Or.inr (by simp)
      · rw [if_neg he1] at h
        cases h2 : parseSeg r1 with
        | none => rw [h2] at h; exact Option.noConfusion h
        | some p2 =>
          obtain ⟨d2, r2⟩ := p2
          rw [h2] at h
          dsimp only at h
          obtain ⟨hd2, hr2, hr1eq⟩ := parseSeg_eq_some_iff.mp h2
          subst hr1eq
          by_cases he2 : r2 = [] ∨ r2 = ['\n']
          · rw [if_pos he2] at h
            simp only [Option.some.injEq, Prod.mk.injEq] at h
            obtain ⟨rfl, rfl⟩ := h
            refine ⟨hd1, hd2, Or.inl ?_⟩
            show EndsAt _ _
            rcases he2 with rfl | rfl
            · exact Or.inl (by simp)
            · exact Or.inr (by simp)
          · rw [if_neg he2] at h
            cases h3 : parseSeg r2 with
            | none => rw [h3] at h; exact Option.noConfusion h
            | some p3 =>
              obtain ⟨d3, r3⟩ := p3
              rw [h3] at h
              dsimp only at h
              obtain ⟨hd3, hr3, hr2eq⟩ := parseSeg_eq_some_iff.mp h3
              subst hr2eq
              by_cases he3 : r3 = [] ∨ r3 = ['\n']
              · rw [if_pos he3] at h
                simp only [Option.some.injEq, Prod.mk.injEq] at h
                obtain ⟨rfl, rfl⟩ := h
                refine ⟨hd1, hd2, Or.inr ⟨d3, hd3, ?_⟩⟩
                show EndsAt _ _
                rcases he3 with rfl | rfl
                · exact Or.inl (by simp)
                · exact Or.inr (by simp)
              · rw [if_neg he3] at h
                exact Option.noConfusion h
  · intro h
    obtain ⟨hd1, hrest⟩ := h
    have hnl : Char.isDigit '\n' = false := by decide
    cases sec with
    | none =>
      have hends : EndsAt cs ('_' :: f) := hrest
      rcases hends with rfl | rfl
      · have h1 : parseSeg ('_' :: f) = some (f, []) :=
          parseSeg_eq_some_iff.mpr ⟨hd1, by simp, by simp⟩
        unfold parseHere
        rw [h1]
        simp
      · have h1 : parseSeg ('_' :: (f ++ ['\n'])) = some (f, ['\n']) :=
          parseSeg_eq_some_iff.mpr
            ⟨hd1, by intro c hc; simp at hc; subst hc; decide, by simp⟩
        unfold parseHere
        simp only [List.cons_append]
        rw [h1]
        simp
    | some d2 =>
      obtain ⟨hd2, hcases⟩ := hrest
      rcases hcases with hends | ⟨d3, hd3, hends⟩
      · rcases hends with rfl | rfl
        · have h1 : parseSeg ('_' :: (f ++ '_' :: d2)) = some (f, '_' :: d2) :=
            parseSeg_eq_some_iff.mpr
              ⟨hd1, by intro c hc; simp at hc; subst hc; decide, by simp⟩
          have h2 : parseSeg ('_' :: d2) = some (d2, []) :=
            parseSeg_eq_some_iff.mpr ⟨hd2, by simp, by simp⟩
          unfold parseHere
          simp only [List.cons_append]
          rw [h1]
          dsimp only
          rw [if_neg (not_end_cons_underscore d2), h2]
          simp
        · have h1 : parseSeg ('_' :: (f ++ '_' :: (d2 ++ ['\n']))) =
              some (f, '_' :: (d2 ++ ['\n'])) :=
            parseSeg_eq_some_iff.mpr
              ⟨hd1, by intro c hc; simp at hc; subst hc; decide, by simp⟩
          have h2 : parseSeg ('_' :: (d2 ++ ['\n'])) = some (d2, ['\n']) :=
            parseSeg_eq_some_iff.mpr
              ⟨hd2, by intro c hc; simp at hc; subst hc; decide, by simp⟩
          unfold parseHere
          simp only [List.cons_append, List.append_assoc]
          rw [h1]
          dsimp only
          rw [if_neg (not_end_cons_underscore (d2 ++ ['\n'])), h2]
          simp
      · rcases hends with rfl | rfl
        · have h1 : parseSeg ('_' :: (f ++ '_' :: (d2 ++ '_' :: d3))) =
              some (f, '_' :: (d2 ++ '_' :: d3)) :=
            parseSeg_eq_some_iff.mpr
              ⟨hd1, by intro c hc; simp at hc; subst hc; decide, by simp⟩
          have h2 : parseSeg ('_' :: (d2 ++ '_' :: d3)) = some (d2, '_' :: d3) :=
            parseSeg_eq_some_iff.mpr
              ⟨hd2, by intro c hc; simp at hc; subst hc; decide, by simp⟩
          have h3 : parseSeg ('_' :: d3) = some (d3, []) :=
            parseSeg_eq_some_iff.mpr ⟨hd3, by simp, by simp⟩
          unfold parseHere
          simp only [List.cons_append, List.append_assoc]
          rw [h1]
          dsimp only
          rw [if_neg (not_end_cons_underscore (d2 ++ '_' :: d3)), h2]
          dsimp only
          rw [if_neg (not_end_cons_underscore d3), h3]
          simp
        · have h1 : parseSeg ('_' :: (f ++ '_' :: (d2 ++ '_' :: (d3 ++ ['\n'])))) =
              some (f, '_' :: (d2 ++ '_' :: (d3 ++ ['\n']))) :=
            parseSeg_eq_some_iff.mpr
              ⟨hd1, by intro c hc; simp at hc; subst hc; decide, by simp⟩
          have h2 : parseSeg ('_' :: (d2 ++ '_' :: (d3 ++ ['\n']))) =
              some (d2, '_' :: (d3 ++ ['\n'])) :=
            parseSeg_eq_some_iff.mpr
              ⟨hd2, by intro c hc; simp at hc; subst hc; decide, by simp⟩
          have h3 : parseSeg ('_' :: (d3 ++ ['\n'])) = some (d3, ['\n']) :=
            parseSeg_eq_some_iff.mpr
              ⟨hd3, by intro c hc; simp at hc; subst hc; decide, by simp⟩
          unfold parseHere
          simp only [List.cons_append, List.append_assoc]
          rw [h1]
          dsimp only
          rw [if_neg (not_end_cons_underscore (d2 ++ '_' :: (d3 ++ ['\n']))), h2]
          dsimp only
          rw [if_neg (not_end_cons_underscore (d3 ++ ['\n'])), h3]
          simp

theorem parseHere_nil : parseHere [] = none := rfl

theorem parseHere_eq_none_iff {cs : List Char} :
    parseHere cs = none ↔ ¬ ∃ f sec, TailShape cs f sec := by
  constructor
  · rintro h ⟨f, sec, hs⟩
    rw [parseHere_eq_some_iff.mpr hs] at h
    exact Option.noConfusion h
  · intro h
    cases hp : parseHere cs with
    | none => rfl
    | some g =>
      obtain ⟨f, sec⟩ := g
      exact absurd ⟨f, sec, parseHere_eq_some_iff.mp hp⟩ h

/-- Characterisation of `findTail`: it returns the result of the leftmost
successful split whose consumed prefix contains no newline. -/
theorem findTail_eq_some_iff {cs : List Char}
    {g : List Char × Option (List Char)} :
    findTail cs = some g ↔
      ∃ i, parseHere (cs.drop i) = some g ∧
        (∀ c ∈ cs.take i, c ≠ '\n') ∧
        ∀ j < i, parseHere (cs.drop j) = none := by
  induction cs with
  | nil =>
    rw [findTail]
    constructor
    · intro h
      exact Option.noConfusion h
    · rintro ⟨i, hp, -, -⟩
      rw [List.drop_nil, parseHere_nil] at hp
      exact Option.noConfusion hp
  | cons c t ih =>
    constructor
    · intro h
      rw [findTail] at h
      cases hp : parseHere (c :: t) with
      | some g2 =>
        rw [hp] at h
        have hg : g2 = g := by
          have h' : some g2 = some g := h
          injection h'
        subst hg
        exact ⟨0, by simpa using hp, by simp, fun j hj => absurd hj (Nat.not_lt_zero j)⟩
      | none =>
        rw [hp] at h
        by_cases hc : c = '\n'
        · rw [if_pos hc] at h
          exact Option.noConfusion h
        · rw [if_neg hc] at h
          obtain ⟨i, hp', hnl', hmin'⟩ := ih.mp h
          refine ⟨i + 1, by simpa [List.drop_succ_cons] using hp', ?_, ?_⟩
          · intro x hx
            rw [List.take_succ_cons] at hx
            rcases List.mem_cons.mp hx with rfl | hx
            · exact hc
            · exact hnl' x hx
          · intro j hj
            cases j with
            | zero => simpa using hp
            | succ j =>
              rw [List.drop_succ_cons]
              exact hmin' j (Nat.lt_of_succ_lt_succ hj)
    · rintro ⟨i, hp, hnl, hmin⟩
      rw [findTail]
      cases i with
      | zero =>
        rw [List.drop_zero] at hp
        rw [hp]
      | succ i =>
        have h0 : parseHere (c :: t) = none := by simpa using hmin 0 (Nat.succ_pos i)
        rw [h0]
        have hc : c ≠ '\n' := hnl c (by rw [List.take_succ_cons]; simp)
        show (if c = '\n' then none else findTail t) = some g
        rw [if_neg hc]
        apply ih.mpr
        refine ⟨i, by simpa [List.drop_succ_cons] using hp, ?_, ?_⟩
        · intro x hx
          exact hnl x (by rw [List.take_succ_cons]; simp [hx])
        · intro j hj
          have := hmin (j + 1) (Nat.succ_lt_succ hj)
          simpa [List.drop_succ_cons] using this

/-- `findTail` on the characters of `s` realises exactly the declarative
regex semantics `MatchesPattern`. -/
theorem findTail_iff_matchesPattern {s : String} {f : List Char}
    {sec : Option (List Char)} :
    findTail s.toList = some (f, sec) ↔ MatchesPattern s f sec := by
  rw [findTail_eq_some_iff]
  unfold MatchesPattern
  constructor
  · rintro ⟨i, hp, hnl, hmin⟩
    exact ⟨i, parseHere_eq_some_iff.mp hp, hnl,
      fun j hj => parseHere_eq_none_iff.mp (hmin j hj)⟩
  · rintro ⟨i, hs, hnl, hmin⟩
    exact ⟨i, parseHere_eq_some_iff.mpr hs, hnl,
      fun j hj => parseHere_eq_none_iff.mpr (hmin j hj)⟩

/-- Both capture groups returned by `findTail` are non-empty digit runs. -/
theorem findTail_groups_digits {cs f : List Char} {sec : Option (List Char)}
    (h : findTail cs = some (f, sec)) :
    (f ≠ [] ∧ ∀ c ∈ f, c.isDigit = true) ∧
      ∀ d, sec = some d → d ≠ [] ∧ ∀ c ∈ d, c.isDigit = true := by
  obtain ⟨i, hp, -, -⟩ := findTail_eq_some_iff.mp h
  obtain ⟨hd1, hrest⟩ := parseHere_eq_some_iff.mp hp
  refine ⟨hd1, ?_⟩
  intro d hd
  subst hd
  exact hrest.1

/-- The release matcher decides exactly the documented rule: `true` iff the
identifier matches the trailing-numeric pattern (in the leftmost-split regex
semantics, `MatchesPattern`) and either the `first` capture equals the
release, or the `second` capture participates, equals the release and
exceeds `first` by exactly 53 as integers. -/
theorem matchesRelease_decides_rule (s r : String) :
    matchesRelease s r = true ↔
      ∃ f sec, MatchesPattern s f sec ∧
        (f = r.toList ∨ ∃ d, sec = some d ∧ d = r.toList ∧
          (digitsToNat d : Int) - (digitsToNat f : Int) = 53) := by
  cases hf : findTail s.toList with
  | none =>
    rw [matchesRelease, hf]
    constructor
    · intro h
      exact Bool.noConfusion h
    · rintro ⟨f, sec, hm, -⟩
      have := findTail_iff_matchesPattern.mpr hm
      rw [hf] at this
      exact Option.noConfusion this
  | some g =>
    obtain ⟨f0, sec0⟩ := g
    have hm0 : MatchesPattern s f0 sec0 := findTail_iff_matchesPattern.mp hf
    rw [matchesRelease, hf]
    constructor
    · intro h
      refine ⟨f0, sec0, hm0, ?_⟩
      rcases Bool.or_eq_true_iff.mp h with h1 | h2
      · exact Or.inl (of_decide_eq_true h1)
      · cases sec0 with
        | none => exact absurd h2 (by simp)
        | some d2 =>
          obtain ⟨ha, hb⟩ := Bool.and_eq_true_iff.mp h2
          exact Or.inr ⟨d2, rfl, of_decide_eq_true ha, of_decide_eq_true hb⟩
    · rintro ⟨f, sec, hm, hcond⟩
      have huniq : findTail s.toList = some (f, sec) :=
        findTail_iff_matchesPattern.mpr hm
      rw [hf] at huniq
      simp only [Option.some.injEq, Prod.mk.injEq] at huniq
      obtain ⟨rfl, rfl⟩ := huniq
      apply Bool.or_eq_true_iff.mpr
      rcases hcond with hfr | ⟨d, hd, hdr, h53⟩
      · exact Or.inl (decide_eq_true hfr)
      · subst hd
        exact Or.inr (Bool.and_eq_true_iff.mpr ⟨decide_eq_true hdr, decide_eq_true h53⟩)

/-- **C3** — for every identifier string and release string,
`matches(identifier, release)` returns `true` if and only if the identifier
ends in the trailing numeric pattern (leftmost-split regex semantics,
`MatchesPattern`) and either the first captured number equals the release,
or the second captured number is present, equals the release, and exceeds
the first captured number by exactly 53 as integers.  An identifier not
matching the pattern yields `false`; `matchesRelease` is a total Lean
function, so no input yields an error. -/
theorem C3_matchesRelease_iff (s r : String) :
    matchesRelease s r = true ↔
      ∃ f sec, MatchesPattern s f sec ∧
        (f = r.toList ∨ ∃ d, sec = some d ∧ d = r.toList ∧
          (digitsToNat d : Int) - (digitsToNat f : Int) = 53) :=
  matchesRelease_decides_rule s r

/-- **C9** — for every identifier and every release containing a character
that is not a decimal digit, the matcher returns `false`: both capture
groups are `\d+` runs, so either successful comparison forces the release to
consist of digits only. -/
theorem C9_matchesRelease_false_of_nondigit (s r : String)
    (h : ∃ c ∈ r.toList, c.isDigit = false) :
    matchesRelease s r = false := by
  obtain ⟨c, hc, hcd⟩ := h
  cases hb : matchesRelease s r with
  | false => rfl
  | true =>
    obtain ⟨f, sec, hm, hcond⟩ := (matchesRelease_decides_rule s r).mp hb
    obtain ⟨i, hshape, -, -⟩ := hm
    obtain ⟨⟨-, hfdig⟩, hrest⟩ := hshape
    rcases hcond with hfr | ⟨d, hd, hdr, -⟩
    · have : c.isDigit = true := hfdig c (by rw [hfr]; exact hc)
      rw [hcd] at this
      exact Bool.noConfusion this
    · subst hd
      have : c.isDigit = true := hrest.1.2 c (by rw [hdr]; exact hc)
      rw [hcd] at this
      exact Bool.noConfusion this

/-- Witness for C9 at a concrete input: the release `"9a"` contains a
non-digit and is rejected against a matching-looking identifier. -/
theorem C9_witness :
    (∃ c ∈ ("9a".toList), c.isDigit = false) ∧
      matchesRelease "db_core_9a_1" "9a" = false :=
  ⟨by decide, C9_matchesRelease_false_of_nondigit "db_core_9a_1" "9a" (by decide)⟩

/-! ## The listing endpoint

`handover_results` (lines 247–298) first queries for submission-shaped
documents: `message` matching the analysed wildcard `Handling*` (submission
messages are `"Handling {…}"`; modelled as a prefix test) and
`params.tgt_uri` matching the regexp `/.*_{release}(_[0-9]+)?/` (modelled
against the whole field value), sorted by `report_time` descending, capped
at 1000 hits.  Each candidate passing `valid_handover` contributes exactly
one entry; tokens are not deduplicated. -/

/-- The `Handling*` wildcard on the `message` field. -/
def hasHandlingMessage (m : String) : Bool :=
  "Handling".toList.isPrefixOf m.toList

/-- Does `t` start with `rel` followed by the end or by `_<digits>` and the
end — the tail of the regexp `/.*_{release}(_[0-9]+)?/` after the underscore. -/
def relSuffix (t rel : List Char) : Bool :=
  decide (t.take rel.length = rel) &&
    (match t.drop rel.length with
     | [] => true
     | c :: ds => decide (c = '_') && !ds.isEmpty && ds.all Char.isDigit)

/-- The regexp filter `/.*_{release}(_[0-9]+)?/` on `params.tgt_uri`: some
split position gives `…_<release>` or `…_<release>_<digits>` ending the
value. -/
def tgtMatchesRelease : List Char → List Char → Bool
  | [], _ => false
  | c :: t, rel => (decide (c = '_') && relSuffix t rel) || tgtMatchesRelease t rel

/-- The filter of the listing query (lines 250–265). -/
def submissionQuery (release : String) (e : EventRecord) : Bool :=
  hasHandlingMessage e.message &&
    tgtMatchesRelease e.params.tgt_uri.toList release.toList

/-- The candidate documents of the listing query: submission-shaped hits,
newest first, at most 1000. -/
def candidateDocs (store : List EventRecord) (release : String) :
    List EventRecord :=
  es_search store (submissionQuery release) 1000

/-- One entry of the `list_handovers` response (lines 274–296), with the
exact keys the endpoint writes; `current_message` is an `Option` because the
key is only written when one of the per-token lookups returns a hit. -/
structure ListEntry where
  id : String
  message : String
  comment : String
  handover_token : String
  current_message : Option String
  contact : String
  src_uri : String
  tgt_uri : String
  report_time : Nat
deriving DecidableEq, Repr

/-- The `current_message` attached to an entry (lines 278–292): the message
of the most recent ERROR event for the token if any, else of the most recent
INFO event, else the key stays unset. -/
def current_message_of (store : List EventRecord) (token : String) :
    Option String :=
  match es_search store (errorQuery token) 1 with
  | e :: _ => some e.message
  | [] =>
    match es_search store (infoQuery token) 1 with
    | e :: _ => some e.message
    | [] => none

/-- The entry built for one candidate document. -/
def mkListEntry (store : List EventRecord) (doc : EventRecord) : ListEntry :=
  { id := doc.id
    message := doc.message
    comment := doc.params.comment
    handover_token := doc.params.handover_token
    current_message := current_message_of store doc.params.handover_token
    contact := doc.params.contact
    src_uri := doc.params.src_uri
    tgt_uri := doc.params.tgt_uri
    report_time := doc.report_time }

/-- The listing endpoint `GET /handovers` (lines 247–298): one entry per
candidate document passing `valid_handover`; no deduplication of tokens. -/
def handover_results (store : List EventRecord) (release : String) :
    List ListEntry :=
  (candidateDocs store release).filterMap
    (fun doc =>
      if valid_handover doc release then some (mkListEntry store doc)
      else none)

/-! ## The spec's status labels

The endpoint returns raw event fields and never writes a `status` key; the
specification describes the same reduction with an explicit status label
(§4.2: `failed` / `running` / `complete`).  To state the claims that speak
of this label, the following comparison definition follows the spec's words;
its "the message does not indicate completion" test is not defined anywhere,
so it is taken as a parameter. -/

inductive Status where
  | running : Status
  | complete : Status
  | failed : Status
deriving DecidableEq, Repr

/-- The status label of the spec's Status Reducer (§4.2), written from the
spec's words for comparison with `handover_result`: `failed` when an ERROR
event exists; otherwise, from the most recent INFO event, `running` when
`progress_complete < progress_total` (with a progress field absent,
`running` unless the message indicates completion), else `complete`; no
label when the token has no events. -/
def spec_status (indicatesCompletion : String → Bool)
    (store : List EventRecord) (token : String) : Option Status :=
  match es_search store (errorQuery token) 1 with
  | _ :: _ => some Status.failed
  | [] =>
    match es_search store (infoQuery token) 1 with
    | [] => none
    | e :: _ =>
      match e.params.progress_complete, e.params.progress_total with
      | some pc, some pt =>
        some (if pc < pt then Status.running else Status.complete)
      | _, _ =>
        some (if indicatesCompletion e.message then Status.complete
              else Status.running)

/-! ## Further search lemmas -/

/-- A size-1 search that returns `[e]` returns a matching stored document
whose `report_time` dominates every matching document. -/
theorem es_search_one_eq_single {store : List EventRecord}
    {q : EventRecord → Bool} {e : EventRecord}
    (h : es_search store q 1 = [e]) :
    e ∈ store ∧ q e = true ∧
      ∀ x ∈ store, q x = true → x.report_time ≤ e.report_time := by
  unfold es_search at h
  cases hs : sortTimeDesc (store.filter q) with
  | nil =>
    rw [hs] at h
    exact absurd h (by simp)
  | cons b bt =>
    rw [hs] at h
    have hb : b = e := by simpa using h
    subst hb
    have hmem : b ∈ sortTimeDesc (store.filter q) := by rw [hs]; simp
    have hbf := List.mem_filter.mp (mem_sortTimeDesc.mp hmem)
    exact ⟨hbf.1, hbf.2,
      fun x hx hq => head_sortTimeDesc_max hs x (List.mem_filter.mpr ⟨hx, hq⟩)⟩

/-- A size-1 search returns at most one hit. -/
theorem es_search_one_length_le (store : List EventRecord)
    (q : EventRecord → Bool) : (es_search store q 1).length ≤ 1 := by
  unfold es_search
  simp [List.length_take_le]

/-- `infoDetails` preserves the number of hits when it succeeds. -/
theorem infoDetails_ok_length {l : List EventRecord} {ds : List HandoverDetail}
    (h : infoDetails l = Except.ok ds) : ds.length = l.length := by
  induction l generalizing ds with
  | nil =>
    rw [infoDetails] at h
    injection h with h'
    rw [← h']
    rfl
  | cons e rest ih =>
    rw [infoDetails] at h
    cases hpc : e.params.progress_complete with
    | none => rw [hpc] at h; exact Except.noConfusion h
    | some pc =>
      rw [hpc] at h
      cases hpt : e.params.progress_total with
      | none => rw [hpt] at h; exact Except.noConfusion h
      | some pt =>
        rw [hpt] at h
        cases hrec : infoDetails rest with
        | error err => rw [hrec] at h; exact Except.noConfusion h
        | ok ds2 =>
          rw [hrec] at h
          have h' : infoDetail e pc pt :: ds2 = ds := by
            have := h
            injection this
          rw [← h']
          simp [ih hrec]

/-! ## Status reduction claims -/

/-- **C1** — for every token with at least one ERROR event in the store, the
status reduction answers from the ERROR event with the maximum
`report_time`: the result is that event's detail (so its message is that
event's message, regardless of any INFO events), carries no progress fields,
and the spec's status label is `failed`. -/
theorem C1_error_event_wins (ic : String → Bool) (store : List EventRecord)
    (token : String)
    (h : ∃ e ∈ store, e.params.handover_token = token ∧
      e.report_type = ReportType.ERROR) :
    ∃ e0, handover_result store token = Except.ok [errorDetail e0] ∧
      e0 ∈ store ∧ e0.params.handover_token = token ∧
      e0.report_type = ReportType.ERROR ∧
      (∀ x ∈ store, x.params.handover_token = token →
        x.report_type = ReportType.ERROR → x.report_time ≤ e0.report_time) ∧
      (errorDetail e0).message = e0.message ∧
      (errorDetail e0).progress_complete = none ∧
      (errorDetail e0).progress_total = none ∧
      spec_status ic store token = some Status.failed := by
  obtain ⟨e, he, hetok, hetyp⟩ := h
  obtain ⟨e0, hs, he0, hq0, hmax⟩ :=
    es_search_one_eq_top he
      (show errorQuery token e = true from decide_eq_true ⟨hetok, hetyp⟩)
  obtain ⟨h0tok, h0typ⟩ := of_decide_eq_true hq0
  refine ⟨e0, ?_, he0, h0tok, h0typ, ?_, rfl, rfl, rfl, ?_⟩
  · simp [handover_result, hs]
  · intro x hx h1 h2
    exact hmax x hx (decide_eq_true ⟨h1, h2⟩)
  · simp [spec_status, hs]

/-- **C4** — for every token for which the store holds neither ERROR nor
INFO events, the status reduction fails with the not-found error rather than
returning an empty or zero result. -/
theorem C4_unknown_token_not_found (store : List EventRecord) (token : String)
    (herr : ∀ e ∈ store, ¬ (e.params.handover_token = token ∧
      e.report_type = ReportType.ERROR))
    (hinfo : ∀ e ∈ store, ¬ (e.params.handover_token = token ∧
      e.report_type = ReportType.INFO)) :
    handover_result store token =
      Except.error (HandoverError.notFound token) := by
  have h1 : es_search store (errorQuery token) 1 = [] :=
    es_search_one_eq_nil_iff.mpr
      (fun e he hq => herr e he (of_decide_eq_true hq))
  have h2 : es_search store (infoQuery token) 1 = [] :=
    es_search_one_eq_nil_iff.mpr
      (fun e he hq => hinfo e he (of_decide_eq_true hq))
  simp [handover_result, h1, h2, infoDetails]

/-- **C8** — after the delete operation removes every event record of a
token, a status reduction for that token fails with the not-found error. -/
theorem C8_delete_then_not_found (store : List EventRecord) (token : String) :
    handover_result (delete_handover store token) token =
      Except.error (HandoverError.notFound token) := by
  have hno : ∀ e ∈ delete_handover store token,
      e.params.handover_token ≠ token := by
    intro e he
    exact of_decide_eq_true (List.mem_filter.mp he).2
  have h1 : es_search (delete_handover store token) (errorQuery token) 1 = [] :=
    es_search_one_eq_nil_iff.mpr
      (fun e he hq => hno e he (of_decide_eq_true hq).1)
  have h2 : es_search (delete_handover store token) (infoQuery token) 1 = [] :=
    es_search_one_eq_nil_iff.mpr
      (fun e he hq => hno e he (of_decide_eq_true hq).1)
  simp [handover_result, h1, h2, infoDetails]

/-- **C10** — whenever the single-token status operation succeeds, the
returned report list has exactly one entry: both lookups fetch at most one
record and success requires at least one. -/
theorem C10_success_single_entry (store : List EventRecord) (token : String)
    (l : List HandoverDetail)
    (h : handover_result store token = Except.ok l) : l.length = 1 := by
  cases herr : es_search store (errorQuery token) 1 with
  | cons e rest =>
    have hlen := es_search_one_length_le store (errorQuery token)
    rw [herr] at hlen
    have hrest : rest = [] := by
      cases rest with
      | nil => rfl
      | cons b bt => simp at hlen
    subst hrest
    have hres : handover_result store token = Except.ok [errorDetail e] := by
      simp [handover_result, herr]
    rw [hres] at h
    injection h with h'
    rw [← h']
    rfl
  | nil =>
    cases hi : es_search store (infoQuery token) 1 with
    | nil =>
      have hres : handover_result store token =
          Except.error (HandoverError.notFound token) := by
        simp [handover_result, herr, hi, infoDetails]
      rw [hres] at h
      exact Except.noConfusion h
    | cons e rest =>
      have hlen := es_search_one_length_le store (infoQuery token)
      rw [hi] at hlen
      have hrest : rest = [] := by
        cases rest with
        | nil => rfl
        | cons b bt => simp at hlen
      subst hrest
      cases hpc : e.params.progress_complete with
      | none =>
        have hres : handover_result store token =
            Except.error (HandoverError.keyError "progress_complete") := by
          simp [handover_result, herr, hi, infoDetails, hpc]
        rw [hres] at h
        exact Except.noConfusion h
      | some pc =>
        cases hpt : e.params.progress_total with
        | none =>
          have hres : handover_result store token =
              Except.error (HandoverError.keyError "progress_total") := by
            simp [handover_result, herr, hi, infoDetails, hpc, hpt]
          rw [hres] at h
          exact Except.noConfusion h
        | some pt =>
          have hres : handover_result store token =
              Except.ok [infoDetail e pc pt] := by
            simp [handover_result, herr, hi, infoDetails, hpc, hpt]
          rw [hres] at h
          injection h with h'
          rw [← h']
          rfl

/-- **C2 (amended)** — for every token with no ERROR events whose most
recent INFO event carries both progress fields, the reduction succeeds with
that event's detail — so the current message is the message of the INFO
event with maximum `report_time` — and the spec's status label is `running`
exactly when `progress_complete < progress_total`, else `complete`.  (As
stated, the claim fails when the progress fields are absent: the code then
raises a `KeyError` instead of returning a running status — see the
counterexample.) -/
theorem C2_amended_info_reduction (ic : String → Bool)
    (store : List EventRecord) (token : String) (e : EventRecord) (pc pt : Nat)
    (hne : ∀ x ∈ store, ¬ (x.params.handover_token = token ∧
      x.report_type = ReportType.ERROR))
    (hinfo : es_search store (infoQuery token) 1 = [e])
    (hpc : e.params.progress_complete = some pc)
    (hpt : e.params.progress_total = some pt) :
    handover_result store token = Except.ok [infoDetail e pc pt] ∧
      (infoDetail e pc pt).message = e.message ∧
      e ∈ store ∧ e.params.handover_token = token ∧
      e.report_type = ReportType.INFO ∧
      (∀ x ∈ store, x.params.handover_token = token →
        x.report_type = ReportType.INFO → x.report_time ≤ e.report_time) ∧
      spec_status ic store token =
        some (if pc < pt then Status.running else Status.complete) := by
  have herr : es_search store (errorQuery token) 1 = [] :=
    es_search_one_eq_nil_iff.mpr
      (fun x hx hq => hne x hx (of_decide_eq_true hq))
  obtain ⟨hmem, hq, hmax⟩ := es_search_one_eq_single hinfo
  obtain ⟨htok, htyp⟩ := of_decide_eq_true hq
  refine ⟨?_, rfl, hmem, htok, htyp, ?_, ?_⟩
  · simp [handover_result, herr, hinfo, infoDetails, hpc, hpt]
  · intro x hx h1 h2
    exact hmax x hx (decide_eq_true ⟨h1, h2⟩)
  · simp [spec_status, herr, hinfo, hpc, hpt]

/-- **C7 (amended)** — when no ERROR event exists for a token and a most
recent INFO event is found, the reduction copies `progress_complete` and
`progress_total` into the result when both are present in the event's
params, but fails with a `KeyError` (rather than omitting the field) when
either is absent. -/
theorem C7_amended_progress_copy (store : List EventRecord) (token : String)
    (e : EventRecord)
    (hne : ∀ x ∈ store, ¬ (x.params.handover_token = token ∧
      x.report_type = ReportType.ERROR))
    (hinfo : es_search store (infoQuery token) 1 = [e]) :
    (∀ pc pt, e.params.progress_complete = some pc →
      e.params.progress_total = some pt →
      handover_result store token = Except.ok [infoDetail e pc pt]) ∧
    (e.params.progress_complete = none →
      handover_result store token =
        Except.error (HandoverError.keyError "progress_complete")) ∧
    (∀ pc, e.params.progress_complete = some pc →
      e.params.progress_total = none →
      handover_result store token =
        Except.error (HandoverError.keyError "progress_total")) := by
  have herr : es_search store (errorQuery token) 1 = [] :=
    es_search_one_eq_nil_iff.mpr
      (fun x hx hq => hne x hx (of_decide_eq_true hq))
  refine ⟨?_, ?_, ?_⟩
  · intro pc pt hpc hpt
    simp [handover_result, herr, hinfo, infoDetails, hpc, hpt]
  · intro hpc
    simp [handover_result, herr, hinfo, infoDetails, hpc]
  · intro pc hpc hpt
    simp [handover_result, herr, hinfo, infoDetails, hpc, hpt]

/-! ## Listing claims -/

/-- **C5** — every entry of the listing result has a `src_uri` accepted by
the release matcher (applied to `src_uri`, not `tgt_uri`), and a candidate
document rejected by the matcher contributes no entry. -/
theorem C5_listing_matcher_filter (store : List EventRecord)
    (release : String) :
    (∀ en ∈ handover_results store release,
        matchesRelease en.src_uri release = true) ∧
      ∀ d ∈ candidateDocs store release, valid_handover d release = false →
        mkListEntry store d ∉ handover_results store release := by
  constructor
  · intro en hen
    obtain ⟨d, hd, hif⟩ := List.mem_filterMap.mp hen
    by_cases hv : valid_handover d release
    · rw [if_pos hv] at hif
      injection hif with h'
      rw [← h']
      exact hv
    · rw [if_neg hv] at hif
      exact Option.noConfusion hif
  · intro d hd hvf hmem
    obtain ⟨d2, hd2, hif2⟩ := List.mem_filterMap.mp hmem
    by_cases hv2 : valid_handover d2 release
    · rw [if_pos hv2] at hif2
      injection hif2 with h'
      have hsrc : d2.params.src_uri = d.params.src_uri :=
        congrArg ListEntry.src_uri h'
      have hvd : valid_handover d release = true := by
        rw [valid_handover] at hv2 ⊢
        rw [← hsrc]
        exact hv2
      rw [hvf] at hvd
      exact Bool.noConfusion hvd
    · rw [if_neg hv2] at hif2
      exact Option.noConfusion hif2

/-- **C6 (amended)** — the listing result has one entry per candidate
submission document accepted by the matcher: the endpoint performs no
deduplication, so a token with several qualifying submission events appears
several times. -/
theorem C6_amended_entry_per_submission (store : List EventRecord)
    (release : String) :
    (handover_results store release).length =
      ((candidateDocs store release).filter
        (fun d => valid_handover d release)).length := by
  unfold handover_results
  generalize candidateDocs store release = l
  induction l with
  | nil => rfl
  | cons d t ih =>
    by_cases hv : valid_handover d release
    · simp [List.filterMap_cons, List.filter_cons, hv, ih]
    · simp [List.filterMap_cons, List.filter_cons, hv, ih]

/-! ## Concrete fixtures for witnesses and counterexamples -/

/-- Shared payload builder for the concrete stores below. -/
def mkP (tok su tu : String) (pc pt : Option Nat) : Params :=
  { handover_token := tok
    src_uri := su
    tgt_uri := tu
    contact := "joe.blogg@ebi.ac.uk"
    comment := "a comment"
    progress_complete := pc
    progress_total := pt }

def c1info : EventRecord :=
  { id := "i1", report_type := ReportType.INFO, report_time := 1,
    message := "Handling job",
    params := mkP "t1" "db_core_93_1" "db_core_93_1" (some 1) (some 3) }

def c1err : EventRecord :=
  { id := "e1", report_type := ReportType.ERROR, report_time := 2,
    message := "Database copy failed",
    params := mkP "t1" "db_core_93_1" "db_core_93_1" none none }

/-- A token with one INFO and one later ERROR event. -/
def c1store : List EventRecord := [c1info, c1err]

/-- Witness for C1 at a concrete input: with an ERROR event present, the
reduction answers from it. -/
theorem C1_witness :
    ∃ e0, handover_result c1store "t1" = Except.ok [errorDetail e0] ∧
      e0 ∈ c1store ∧ e0.params.handover_token = "t1" ∧
      e0.report_type = ReportType.ERROR ∧
      (∀ x ∈ c1store, x.params.handover_token = "t1" →
        x.report_type = ReportType.ERROR → x.report_time ≤ e0.report_time) ∧
      (errorDetail e0).message = e0.message ∧
      (errorDetail e0).progress_complete = none ∧
      (errorDetail e0).progress_total = none ∧
      spec_status (fun _ => false) c1store "t1" = some Status.failed :=
  C1_error_event_wins (fun _ => false) c1store "t1" (by decide)

/-- Witness for C4 at a concrete input: an unknown token yields the
not-found error. -/
theorem C4_witness :
    handover_result c1store "unknown-token" =
      Except.error (HandoverError.notFound "unknown-token") :=
  C4_unknown_token_not_found c1store "unknown-token" (by decide) (by decide)

/-- Witness for C10 at a concrete input. -/
theorem C10_witness :
    (handover_result c1store "t1" = Except.ok [errorDetail c1err]) ∧
      [errorDetail c1err].length = 1 :=
  ⟨rfl, C10_success_single_entry c1store "t1" [errorDetail c1err] rfl⟩

def c2wev : EventRecord :=
  { id := "i2", report_type := ReportType.INFO, report_time := 4,
    message := "Loading into metadata database",
    params := mkP "t2w" "db_core_93_1" "db_core_93_1" (some 2) (some 3) }

/-- A token with a single INFO event carrying both progress fields. -/
def c2wstore : List EventRecord := [c2wev]

/-- Witness for the amended C2 at a concrete input. -/
theorem C2_witness :
    handover_result c2wstore "t2w" = Except.ok [infoDetail c2wev 2 3] ∧
      (infoDetail c2wev 2 3).message = c2wev.message ∧
      c2wev ∈ c2wstore ∧ c2wev.params.handover_token = "t2w" ∧
      c2wev.report_type = ReportType.INFO ∧
      (∀ x ∈ c2wstore, x.params.handover_token = "t2w" →
        x.report_type = ReportType.INFO → x.report_time ≤ c2wev.report_time) ∧
      spec_status (fun _ => false) c2wstore "t2w" =
        some (if 2 < 3 then Status.running else Status.complete) :=
  C2_amended_info_reduction (fun _ => false) c2wstore "t2w" c2wev 2 3
    (by decide) rfl rfl rfl

def c2xev : EventRecord :=
  { id := "x2", report_type := ReportType.INFO, report_time := 1,
    message := "Handling job",
    params := mkP "t2x" "db_core_93_1" "db_core_93_1" none none }

/-- A token whose only INFO event has no progress fields. -/
def c2xstore : List EventRecord := [c2xev]

/-- Counterexample to C2 as stated: the token has no ERROR event and one
INFO event without progress fields, so the claim demands a `running` status
with the event's message; the code instead fails with a `KeyError` on
`progress_complete`. -/
theorem C2_counterexample :
    (∀ e ∈ c2xstore, ¬ (e.params.handover_token = "t2x" ∧
      e.report_type = ReportType.ERROR)) ∧
    (∃ e ∈ c2xstore, e.params.handover_token = "t2x" ∧
      e.report_type = ReportType.INFO) ∧
    handover_result c2xstore "t2x" =
      Except.error (HandoverError.keyError "progress_complete") :=
  ⟨by decide, by decide, rfl⟩

def c7wev : EventRecord :=
  { id := "i7", report_type := ReportType.INFO, report_time := 1,
    message := "Loading data",
    params := mkP "t7w" "db_core_93_1" "db_core_93_1" (some 1) (some 3) }

def c7wstore : List EventRecord := [c7wev]

/-- Witness for the amended C7 at a concrete input: both progress fields
present are copied into the result. -/
theorem C7_witness :
    handover_result c7wstore "t7w" = Except.ok [infoDetail c7wev 1 3] :=
  (C7_amended_progress_copy c7wstore "t7w" c7wev (by decide) rfl).1 1 3 rfl rfl

def c7xev : EventRecord :=
  { id := "x7", report_type := ReportType.INFO, report_time := 1,
    message := "Handling job",
    params := mkP "t7x" "db_core_93_1" "db_core_93_1" (some 1) none }

def c7xstore : List EventRecord := [c7xev]

/-- Counterexample to C7 as stated: the most recent INFO event lacks
`progress_total`, and instead of succeeding with the field omitted the
reduction fails with a `KeyError`. -/
theorem C7_counterexample :
    (∀ e ∈ c7xstore, ¬ (e.params.handover_token = "t7x" ∧
      e.report_type = ReportType.ERROR)) ∧
    (∃ e ∈ c7xstore, e.params.handover_token = "t7x" ∧
      e.report_type = ReportType.INFO) ∧
    handover_result c7xstore "t7x" =
      Except.error (HandoverError.keyError "progress_total") :=
  ⟨by decide, by decide, rfl⟩

def c6ev1 : EventRecord :=
  { id := "a1", report_type := ReportType.INFO, report_time := 2,
    message := "Handling first submission",
    params := mkP "t6" "db_core_93_1" "db_core_93_1" none none }

def c6ev2 : EventRecord :=
  { id := "a2", report_type := ReportType.INFO, report_time := 1,
    message := "Handling second submission",
    params := mkP "t6" "db_core_93_1" "db_core_93_1" none none }

/-- Two qualifying submission events for the same token. -/
def c6store : List EventRecord := [c6ev1, c6ev2]

/-- Counterexample to C6 as stated: a token with two qualifying submission
events appears twice in the listing result, so the output is not
deduplicated by token. -/
theorem C6_counterexample :
    (handover_results c6store "93").map ListEntry.handover_token =
      ["t6", "t6"] := by
  rfl

end HandoverApp
